import Mathlib

/-!
Shallow embedding of `couladj-rs` (`src/main.rs`): a program that discovers
every distinct pair of differing, spatially adjacent pixel colors in a raster
image.  Machine integers are embedded as `Int` (for `isize` quantities: rows,
columns, location coordinates) and `Nat` (for `usize` indices); the `as usize`
and `as isize` casts in the source are value-preserving on every value the
program actually produces (indices below the buffer length, coordinates of
in-bounds locations), and are embedded as `Int.toNat` / `Nat`-to-`Int`
coercion accordingly.  The pixel buffer is a `List Rgba`; the `HashSet` of
pairs is a `Finset PixelPair`.
-/

namespace Couladj

/-- Embedding of gridly's `Vector`: a 2D offset / dimension pair of `isize`
fields, as used by `main.rs` for both image dimensions and adjacency
offsets. -/
@[ext]
structure Vector where
  rows : Int
  columns : Int
  deriving DecidableEq

/-- Embedding of gridly's `Location`: a (row, column) coordinate pair of
`isize` fields. -/
@[ext]
structure Location where
  row : Int
  column : Int
  deriving DecidableEq

/-- Embedding of gridly's `Location + Vector` (coordinate-wise addition), as
used at `location + delta` in `couladj_generic_rayon`. -/
def locAdd (location : Location) (delta : Vector) : Location :=
  ⟨location.row + delta.rows, location.column + delta.columns⟩

/-- Embedding of `to_index` (main.rs lines 14-16):
`(location.row.0 as usize * dimensions.columns.0 as usize) + (location.column.0 as usize)`.
The `as usize` casts are embedded as `Int.toNat`; they agree with the source
for the in-bounds (hence non-negative) locations `to_index` is applied to. -/
def to_index (location : Location) (dimensions : Vector) : Nat :=
  location.row.toNat * dimensions.columns.toNat + location.column.toNat

/-- Embedding of `from_index` (main.rs lines 18-23): row is
`(index as isize).div_euclid(columns)`, column is
`(index as isize).rem_euclid(columns)`.  Rust's `div_euclid`/`rem_euclid`
are exactly `Int.ediv`/`Int.emod`; the `as isize` cast is embedded as the
`Nat`-to-`Int` coercion, which agrees with the source for every index below
the buffer length. -/
def from_index (index : Nat) (dimensions : Vector) : Location :=
  ⟨(index : Int) / dimensions.columns, (index : Int) % dimensions.columns⟩

/-- Embedding of `image::Rgba<u8>`: four 8-bit channels `[r, g, b, a]`
(field `.0` of the Rust struct is the 4-element byte array). -/
@[ext]
structure Rgba where
  r : Nat
  g : Nat
  b : Nat
  a : Nat
  deriving DecidableEq

/-- The channel byte array `self.0` of an `Rgba<u8>`, in order `[r,g,b,a]`. -/
def Rgba.channels (c : Rgba) : List Nat :=
  [c.r, c.g, c.b, c.a]

/-- Embedding of `u8::cmp` (三-way comparison on channel values). -/
def cmpNat (x y : Nat) : Ordering :=
  if x < y then .lt else if y < x then .gt else .eq

/-- Lexicographic three-way comparison of channel lists: the embedding of
Rust's `cmp` on byte arrays/slices (element-wise lexicographic order). -/
def listCmp : List Nat → List Nat → Ordering
  | [], [] => .eq
  | [], _ :: _ => .lt
  | _ :: _, [] => .gt
  | x :: xs, y :: ys => (cmpNat x y).then (listCmp xs ys)

/-- Embedding of `self.origin.0.cmp(&other.origin.0)` etc.: `[u8; 4]::cmp`
is lexicographic element-wise comparison of the channel bytes. -/
def Rgba.cmp (x y : Rgba) : Ordering :=
  listCmp x.channels y.channels

/-- Embedding of `PixelPair` (main.rs lines 25-29): an ordered pair of the
origin pixel's color and one neighbor's color. -/
@[ext]
structure PixelPair where
  origin : Rgba
  neighbor : Rgba
  deriving DecidableEq

/-- Embedding of `PixelPair::swap` (main.rs lines 31-38). -/
def PixelPair.swap (p : PixelPair) : PixelPair :=
  ⟨p.neighbor, p.origin⟩

/-- Embedding of `Ord for PixelPair` (main.rs lines 46-53):
`self.origin.0.cmp(&other.origin.0).then_with(|| self.neighbor.0.cmp(&other.neighbor.0))`. -/
def PixelPair.cmp (x y : PixelPair) : Ordering :=
  (Rgba.cmp x.origin y.origin).then (Rgba.cmp x.neighbor y.neighbor)

/-- The `≤` relation of `Ord for PixelPair`, as a `Bool`:
`x ≤ y` iff `x.cmp(y) != Ordering::Greater`. -/
def pairLE (x y : PixelPair) : Bool :=
  PixelPair.cmp x y != Ordering.gt

/-- Relation form of `pairLE`, for use with Mathlib's sorting lemmas. -/
def PairLE (x y : PixelPair) : Prop :=
  pairLE x y = true

instance : DecidableRel PairLE :=
  fun x y => inferInstanceAs (Decidable (pairLE x y = true))

/-- Embedding of `GridBounds::location_in_bounds` for the `Rectangle` of
main.rs lines 55-68: the rectangle is rooted at `(0, 0)` with the image's
dimensions, so a location is in bounds iff both coordinates are at least 0
and strictly below the corresponding dimension. -/
def location_in_bounds (rect : Vector) (location : Location) : Bool :=
  0 ≤ location.row && location.row < rect.rows &&
    0 ≤ location.column && location.column < rect.columns

/-- Default color used to totalize the `buffer[neighbor_index]` lookup.  In
the source this lookup panics out of bounds; the theorem for the bounds-safety
claim shows every index reaching the lookup is below the buffer length, so
the default is never returned on inputs satisfying the documented
`buffer.len() == rows * columns` invariant. -/
def zeroRgba : Rgba :=
  ⟨0, 0, 0, 0⟩

/-- Embedding of the per-pixel iterator chain inside `flat_map_iter`
(main.rs lines 91-111): map each adjacency offset to the neighbor's
coordinates, bounds-check them, convert to an index, look the neighbor up,
drop neighbors equal to the origin pixel, and build a `PixelPair`. -/
def pixel_pairs (buffer : List Rgba) (rect : Vector) (adjacencies : List Vector)
    (location : Location) (pixel : Rgba) : List PixelPair :=
  (((((adjacencies.map (fun delta => locAdd location delta)).filter
      (fun neighbor_coords => location_in_bounds rect neighbor_coords)).map
      (fun neighbor_coords => to_index neighbor_coords rect)).map
      (fun neighbor_index => buffer.getD neighbor_index zeroRgba)).filter
      (fun neighbor => neighbor != pixel)).map
      (fun neighbor => { origin := pixel, neighbor := neighbor })

/-- Embedding of `couladj_generic_rayon` (main.rs lines 77-122).  The rayon
pipeline enumerates the buffer, maps each index to its location, extracts the
per-pixel pairs, and collects everything into a `HashSet` via per-thread
`fold`s merged by `reduce` with set-`extend`; since `HashSet` insertion and
union are idempotent and commutative the resulting set is exactly the
deduplication (`List.toFinset`) of all emitted pairs.  The worker-partitioned
fold/reduce is modelled separately by `couladj_partitioned` and proved to
produce this same set. -/
def couladj_generic_rayon (buffer : List Rgba) (dimensions : Vector)
    (adjacencies : List Vector) : Finset PixelPair :=
  (((buffer.enum.map (fun ip => (from_index ip.1 dimensions, ip.2))).map
      (fun lp => pixel_pairs buffer dimensions adjacencies lp.1 lp.2)).flatten).toFinset

/-- Embedding of one rayon worker's `fold(HashSet::new, |set, pair| set.insert(pair))`
(main.rs line 114): insert every emitted pair into an initially empty set. -/
def hash_fold (pairs : List PixelPair) : Finset PixelPair :=
  pairs.foldl (fun set pair => insert pair set) ∅

/-- Embedding of the `reduce` merge step (main.rs lines 116-121): the set
with the larger capacity absorbs (`extend`) the other, so the result is the
union either way.  `HashSet::capacity` is not observable on `Finset`; the
cardinality stands in for it, which is harmless because both branches produce
the union of the two sets. -/
def merge_sets (set1 set2 : Finset PixelPair) : Finset PixelPair :=
  if set2.card < set1.card then set1 ∪ set2 else set2 ∪ set1

/-- The rayon fold/reduce of `couladj_generic_rayon` under an explicit
partition of the enumerated buffer into worker chunks: each chunk is
processed by one worker into a local set (`hash_fold`), and the local sets
are merged with `merge_sets`. -/
def couladj_partitioned (buffer : List Rgba) (dimensions : Vector)
    (adjacencies : List Vector) (partition : List (List (Nat × Rgba))) : Finset PixelPair :=
  (partition.map (fun chunk =>
      hash_fold (((chunk.map (fun ip => (from_index ip.1 dimensions, ip.2))).map
        (fun lp => pixel_pairs buffer dimensions adjacencies lp.1 lp.2)).flatten))).foldl
    merge_sets ∅

/-- Embedding of the symmetry-closing step (main.rs line 185):
`result.extend(result.clone().iter().map(|pair| pair.swap()))` — the swapped
image of a frozen clone of the set is added to the set, i.e. the result is
`set ∪ swap '' set`. -/
def close (set : Finset PixelPair) : Finset PixelPair :=
  set ∪ set.image PixelPair.swap

/-- Gridly's `Down.as_vector()`: one row downward. -/
def down : Vector := ⟨1, 0⟩

/-- Gridly's `Right.as_vector()`: one column rightward. -/
def right : Vector := ⟨0, 1⟩

/-- Gridly's `Up` direction vector. -/
def up : Vector := ⟨-1, 0⟩

/-- Gridly's `Left` direction vector. -/
def left : Vector := ⟨0, -1⟩

/-- Gridly's `Down + Left` (main.rs line 177). -/
def down_left : Vector := ⟨1, -1⟩

/-- Gridly's `Down + Right` (main.rs line 178). -/
def down_right : Vector := ⟨1, 1⟩

/-- The `Up + Left` diagonal (not checked by the source; used to state the
full undirected 8-connected relation). -/
def up_left : Vector := ⟨-1, -1⟩

/-- The `Up + Right` diagonal (not checked by the source; used to state the
full undirected 8-connected relation). -/
def up_right : Vector := ⟨-1, 1⟩

/-- The 4-connected offset list of main.rs line 170: `[Down, Right]` only. -/
def forward_4 : List Vector := [down, right]

/-- The 8-connected offset list of main.rs lines 172-180:
`[Down, Right, Down + Left, Down + Right]`. -/
def forward_8 : List Vector := [down, right, down_left, down_right]

/-- Stated from the spec's description of the full undirected 4-connected
relation: all four cardinal directions, to be compared with the source's
forward-only offsets plus symmetry closure. -/
def full_4 : List Vector := [down, right, up, left]

/-- Stated from the spec's description of the full undirected 8-connected
relation: all eight directions, to be compared with the source's
forward-only offsets plus symmetry closure. -/
def full_8 : List Vector := [down, right, down_left, down_right, up, left, up_right, up_left]

/-- Coordinate-wise negation of an offset (the reverse direction of an
adjacency offset). -/
def negVec (delta : Vector) : Vector := ⟨-delta.rows, -delta.columns⟩

/-- The offset list selected by `args.full_adjacencies` (main.rs lines 169-181). -/
def offsets (full_adjacencies : Bool) : List Vector :=
  if full_adjacencies then forward_8 else forward_4

/-- The final result of `main` before output: the aggregation over the
selected offsets, symmetry-closed (main.rs lines 169-185). -/
def main_result (buffer : List Rgba) (dimensions : Vector) (full_adjacencies : Bool) :
    Finset PixelPair :=
  close (couladj_generic_rayon buffer dimensions (offsets full_adjacencies))

/-- The color held at a location of the grid: the buffer entry at the
location's linear index (the form in which the characterization theorems
speak about pixels). -/
def color_at (buffer : List Rgba) (rect : Vector) (location : Location) : Rgba :=
  buffer.getD (to_index location rect) zeroRgba

/-- Embedding of `data.sort_unstable()` (main.rs line 194): a sorted
permutation of the input under `Ord for PixelPair`.  `sort_unstable` is an
unstable sort, but on the duplicate-free lists the program sorts (drawn from
a `HashSet`) every correct sort produces the same list, so the structurally
recursive `insertionSort` is an exact model. -/
def sortPairs (data : List PixelPair) : List PixelPair :=
  List.insertionSort PairLE data

/-- The Table-mode header line (main.rs line 199). -/
def header : String :=
  "r\tg\tb\ta\tadj_r\tadj_g\tadj_b\tadj_a"

/-- One Table-mode data row (main.rs lines 201-213): the eight channel
bytes of origin then neighbor, tab-separated. -/
def render_row (pair : PixelPair) : String :=
  toString pair.origin.r ++ "\t" ++ toString pair.origin.g ++ "\t" ++
    toString pair.origin.b ++ "\t" ++ toString pair.origin.a ++ "\t" ++
    toString pair.neighbor.r ++ "\t" ++ toString pair.neighbor.g ++ "\t" ++
    toString pair.neighbor.b ++ "\t" ++ toString pair.neighbor.a

/-- The Table-mode output lines (main.rs lines 190-213): the header line,
then one row per pair of the sorted data, where `data` is the list obtained
by iterating the final set (any order — `result.iter().copied().collect()`). -/
def table_output (data : List PixelPair) : List String :=
  header :: (sortPairs data).map render_row

/-- The number reported in Count mode (main.rs lines 187-188):
`result.len()` of the final symmetry-closed set. -/
def count_reported (set : Finset PixelPair) : Nat :=
  set.card

/-- Scenario color Red = (255, 0, 0, 255). -/
def red : Rgba := ⟨255, 0, 0, 255⟩

/-- Scenario color Blue = (0, 0, 255, 255). -/
def blue : Rgba := ⟨0, 0, 255, 255⟩

/-- The 1×2 scenario image `[Red, Blue]` (one row, two columns). -/
def scenarioA_buffer : List Rgba := [red, blue]

/-- Dimensions of the 1×2 scenario image. -/
def scenarioA_dims : Vector := ⟨1, 2⟩

/-! Section: Properties of the comparator -/

theorem cmpNat_eq_iff {x y : Nat} : cmpNat x y = .eq ↔ x = y := by
  unfold cmpNat
  split_ifs <;> (simp; omega)

theorem cmpNat_lt_iff {x y : Nat} : cmpNat x y = .lt ↔ x < y := by
  unfold cmpNat
  split_ifs <;> (simp; omega)

theorem cmpNat_swap (x y : Nat) : (cmpNat x y).swap = cmpNat y x := by
  unfold cmpNat
  split_ifs <;> (simp [Ordering.swap]; try omega)

theorem then_eq_eq {o1 o2 : Ordering} : o1.then o2 = .eq ↔ o1 = .eq ∧ o2 = .eq := by
  cases o1 <;> simp [Ordering.then]

theorem then_swap (o1 o2 : Ordering) : (o1.then o2).swap = o1.swap.then o2.swap := by
  cases o1 <;> simp [Ordering.then, Ordering.swap]

theorem then_assoc (o1 o2 o3 : Ordering) :
    (o1.then o2).then o3 = o1.then (o2.then o3) := by
  cases o1 <;> cases o2 <;> simp [Ordering.then]

theorem then_ne_gt {o1 o2 : Ordering} :
    o1.then o2 ≠ .gt ↔ o1 = .lt ∨ (o1 = .eq ∧ o2 ≠ .gt) := by
  cases o1 <;> simp [Ordering.then]

theorem listCmp_eq_iff : ∀ (l m : List Nat), listCmp l m = .eq ↔ l = m
  | [], [] => by simp [listCmp]
  | [], _ :: _ => by simp [listCmp]
  | _ :: _, [] => by simp [listCmp]
  | x :: xs, y :: ys => by
    simp [listCmp, then_eq_eq, cmpNat_eq_iff, listCmp_eq_iff xs ys]

theorem listCmp_swap : ∀ (l m : List Nat), (listCmp l m).swap = listCmp m l
  | [], [] => rfl
  | [], _ :: _ => rfl
  | _ :: _, [] => rfl
  | x :: xs, y :: ys => by
    simp [listCmp, then_swap, cmpNat_swap, listCmp_swap xs ys]

theorem listCmp_le_trans : ∀ {l m k : List Nat},
    listCmp l m ≠ .gt → listCmp m k ≠ .gt → listCmp l k ≠ .gt
  | [], m, k => by cases k <;> simp [listCmp]
  | _ :: _, [], _ => by simp [listCmp]
  | _ :: _, _ :: _, [] => by simp [listCmp]
  | x :: xs, y :: ys, z :: zs => by
    intro h1 h2
    rw [listCmp, then_ne_gt] at h1 h2 ⊢
    rcases h1 with h1 | ⟨h1e, h1t⟩ <;> rcases h2 with h2 | ⟨h2e, h2t⟩
    · exact Or.inl (cmpNat_lt_iff.mpr (lt_trans (cmpNat_lt_iff.mp h1) (cmpNat_lt_iff.mp h2)))
    · exact Or.inl (by rw [← cmpNat_eq_iff.mp h2e]; exact h1)
    · exact Or.inl (by rw [cmpNat_eq_iff.mp h1e]; exact h2)
    · exact Or.inr ⟨by rw [cmpNat_eq_iff.mp h1e]; exact h2e, listCmp_le_trans h1t h2t⟩

theorem listCmp_append : ∀ {l1 m1 l2 m2 : List Nat}, l1.length = m1.length →
    listCmp (l1 ++ l2) (m1 ++ m2) = (listCmp l1 m1).then (listCmp l2 m2)
  | [], [], _, _ => fun _ => rfl
  | [], _ :: _, _, _ => by simp
  | _ :: _, [], _, _ => by simp
  | x :: xs, y :: ys, l2, m2 => by
    intro h
    simp only [List.length_cons, Nat.add_right_cancel_iff] at h
    simp only [List.cons_append, listCmp, List.append_eq, listCmp_append h, then_assoc]

/-- The key of a `PixelPair` for the lexicographic order: the eight channel
bytes, origin first. -/
theorem pair_cmp_eq_listCmp (p q : PixelPair) :
    PixelPair.cmp p q =
      listCmp (p.origin.channels ++ p.neighbor.channels)
        (q.origin.channels ++ q.neighbor.channels) := by
  rw [listCmp_append (by simp [Rgba.channels])]
  rfl

theorem channels_inj {x y : Rgba} (h : x.channels = y.channels) : x = y := by
  simp only [Rgba.channels, List.cons.injEq, and_true] at h
  ext <;> tauto

theorem pair_cmp_eq_iff {p q : PixelPair} : PixelPair.cmp p q = .eq ↔ p = q := by
  rw [pair_cmp_eq_listCmp, listCmp_eq_iff]
  constructor
  · intro h
    have hlen : p.origin.channels.length = q.origin.channels.length := by
      simp [Rgba.channels]
    have := List.append_inj h hlen
    exact PixelPair.ext (channels_inj this.1) (channels_inj this.2)
  · rintro rfl
    rfl

theorem pair_cmp_swap (p q : PixelPair) :
    (PixelPair.cmp p q).swap = PixelPair.cmp q p := by
  rw [pair_cmp_eq_listCmp, pair_cmp_eq_listCmp, listCmp_swap]

theorem pairLE_iff {p q : PixelPair} : PairLE p q ↔ PixelPair.cmp p q ≠ .gt := by
  unfold PairLE pairLE
  generalize PixelPair.cmp p q = o
  cases o <;> decide

theorem pairLE_total (p q : PixelPair) : PairLE p q ∨ PairLE q p := by
  rw [pairLE_iff, pairLE_iff, ← pair_cmp_swap p q]
  cases PixelPair.cmp p q <;> simp [Ordering.swap]

theorem pairLE_trans {p q r : PixelPair} (h1 : PairLE p q) (h2 : PairLE q r) : PairLE p r := by
  rw [pairLE_iff] at h1 h2 ⊢
  rw [pair_cmp_eq_listCmp] at h1 h2 ⊢
  exact listCmp_le_trans h1 h2

theorem pairLE_antisymm {p q : PixelPair} (h1 : PairLE p q) (h2 : PairLE q p) : p = q := by
  rw [pairLE_iff] at h1 h2
  rw [← pair_cmp_swap p q] at h2
  refine pair_cmp_eq_iff.mp ?_
  cases h : PixelPair.cmp p q <;> rw [h] at h1 h2 <;> simp [Ordering.swap] at h1 h2 ⊢

/-! Section: Sorting: permutation-insensitivity -/

theorem sortPairs_sorted (data : List PixelPair) : List.Sorted PairLE (sortPairs data) := by
  haveI : IsTotal PixelPair PairLE := ⟨pairLE_total⟩
  haveI : IsTrans PixelPair PairLE := ⟨fun _ _ _ => pairLE_trans⟩
  exact List.sorted_insertionSort PairLE data

theorem sortPairs_perm (data : List PixelPair) : (sortPairs data).Perm data :=
  List.perm_insertionSort PairLE data

theorem sortPairs_congr {l1 l2 : List PixelPair} (h : l1.Perm l2) :
    sortPairs l1 = sortPairs l2 := by
  haveI : IsAntisymm PixelPair PairLE := ⟨fun _ _ => pairLE_antisymm⟩
  exact List.eq_of_perm_of_sorted
    (((sortPairs_perm l1).trans h).trans (sortPairs_perm l2).symm)
    (sortPairs_sorted l1) (sortPairs_sorted l2)

/-! Section: Grid addressing -/

theorem location_in_bounds_iff {rect : Vector} {location : Location} :
    location_in_bounds rect location = true ↔
      0 ≤ location.row ∧ location.row < rect.rows ∧
        0 ≤ location.column ∧ location.column < rect.columns := by
  simp [location_in_bounds, and_assoc]

theorem from_index_to_index {dimensions : Vector} {location : Location}
    (h : location_in_bounds dimensions location = true) :
    from_index (to_index location dimensions) dimensions = location := by
  obtain ⟨hr0, _, hc0, hcu⟩ := location_in_bounds_iff.mp h
  have hcols : 0 < dimensions.columns := lt_of_le_of_lt hc0 hcu
  have hcast : ((to_index location dimensions : Nat) : Int) =
      location.column + location.row * dimensions.columns := by
    unfold to_index
    push_cast [Int.toNat_of_nonneg hr0, Int.toNat_of_nonneg hc0,
      Int.toNat_of_nonneg (le_of_lt hcols)]
    ring
  unfold from_index
  rw [hcast]
  ext
  · show (location.column + location.row * dimensions.columns) / dimensions.columns =
      location.row
    rw [Int.add_mul_ediv_right _ _ (ne_of_gt hcols),
      Int.ediv_eq_zero_of_lt hc0 hcu, zero_add]
  · show (location.column + location.row * dimensions.columns) % dimensions.columns =
      location.column
    rw [Int.add_mul_emod_self, Int.emod_eq_of_lt hc0 hcu]

theorem columns_pos_of_index {dimensions : Vector} (hc : 0 ≤ dimensions.columns)
    {i : Nat} (hi : (i : Int) < dimensions.rows * dimensions.columns) :
    0 < dimensions.columns := by
  rcases hc.lt_or_eq with h | h
  · exact h
  · rw [← h, mul_zero] at hi
    exact absurd hi (by omega)

theorem to_index_from_index {dimensions : Vector}
    (hc : 0 ≤ dimensions.columns) {i : Nat}
    (hi : (i : Int) < dimensions.rows * dimensions.columns) :
    to_index (from_index i dimensions) dimensions = i := by
  have hcols : 0 < dimensions.columns := columns_pos_of_index hc hi
  have hrow : 0 ≤ (i : Int) / dimensions.columns :=
    Int.ediv_nonneg (Int.natCast_nonneg i) (le_of_lt hcols)
  have hcol : 0 ≤ (i : Int) % dimensions.columns :=
    Int.emod_nonneg _ (ne_of_gt hcols)
  have : ((to_index (from_index i dimensions) dimensions : Nat) : Int) = (i : Int) := by
    unfold to_index from_index
    push_cast [Int.toNat_of_nonneg hrow, Int.toNat_of_nonneg hcol,
      Int.toNat_of_nonneg (le_of_lt hcols)]
    rw [mul_comm]
    exact Int.ediv_add_emod _ _
  exact_mod_cast this

theorem from_index_in_bounds {dimensions : Vector}
    (hc : 0 ≤ dimensions.columns) {i : Nat}
    (hi : (i : Int) < dimensions.rows * dimensions.columns) :
    location_in_bounds dimensions (from_index i dimensions) = true := by
  have hcols : 0 < dimensions.columns := columns_pos_of_index hc hi
  rw [location_in_bounds_iff]
  unfold from_index
  refine ⟨Int.ediv_nonneg (Int.natCast_nonneg i) (le_of_lt hcols), ?_,
    Int.emod_nonneg _ (ne_of_gt hcols), Int.emod_lt_of_pos _ hcols⟩
  show (i : Int) / dimensions.columns < dimensions.rows
  rw [Int.ediv_lt_iff_lt_mul hcols]
  exact hi

theorem to_index_lt {dimensions : Vector} {location : Location}
    (h : location_in_bounds dimensions location = true) :
    ((to_index location dimensions : Nat) : Int) <
      dimensions.rows * dimensions.columns := by
  obtain ⟨hr0, hru, hc0, hcu⟩ := location_in_bounds_iff.mp h
  have hcols : 0 < dimensions.columns := lt_of_le_of_lt hc0 hcu
  have hcast : ((to_index location dimensions : Nat) : Int) =
      location.row * dimensions.columns + location.column := by
    unfold to_index
    push_cast [Int.toNat_of_nonneg hr0, Int.toNat_of_nonneg hc0,
      Int.toNat_of_nonneg (le_of_lt hcols)]
    ring
  rw [hcast]
  have h1 : location.row * dimensions.columns ≤
      (dimensions.rows - 1) * dimensions.columns :=
    mul_le_mul_of_nonneg_right (by omega) (le_of_lt hcols)
  have h2 : (dimensions.rows - 1) * dimensions.columns =
      dimensions.rows * dimensions.columns - dimensions.columns := by ring
  linarith

theorem to_index_lt_length {buffer : List Rgba} {dimensions : Vector} {location : Location}
    (hlen : (buffer.length : Int) = dimensions.rows * dimensions.columns)
    (h : location_in_bounds dimensions location = true) :
    to_index location dimensions < buffer.length := by
  have := to_index_lt h
  rw [← hlen] at this
  exact_mod_cast this

/-! Section: Membership in the extracted pair stream and in the aggregated set -/

theorem mem_pixel_pairs {buffer : List Rgba} {rect : Vector} {adjacencies : List Vector}
    {location : Location} {pixel : Rgba} {p : PixelPair} :
    p ∈ pixel_pairs buffer rect adjacencies location pixel ↔
      ∃ delta ∈ adjacencies,
        location_in_bounds rect (locAdd location delta) = true ∧
        buffer.getD (to_index (locAdd location delta) rect) zeroRgba ≠ pixel ∧
        p = ⟨pixel, buffer.getD (to_index (locAdd location delta) rect) zeroRgba⟩ := by
  simp only [pixel_pairs, List.mem_map, List.mem_filter, bne_iff_ne]
  constructor
  · rintro ⟨neighbor, ⟨⟨ni, ⟨nc, ⟨⟨delta, hmem, rfl⟩, hb⟩, rfl⟩, rfl⟩, hne⟩, rfl⟩
    exact ⟨delta, hmem, hb, hne, rfl⟩
  · rintro ⟨delta, hmem, hb, hne, rfl⟩
    exact ⟨_, ⟨⟨_, ⟨_, ⟨⟨delta, hmem, rfl⟩, hb⟩, rfl⟩, rfl⟩, hne⟩, rfl⟩

theorem mem_couladj {buffer : List Rgba} {dimensions : Vector} {adjacencies : List Vector}
    {p : PixelPair} :
    p ∈ couladj_generic_rayon buffer dimensions adjacencies ↔
      ∃ i px, buffer[i]? = some px ∧
        p ∈ pixel_pairs buffer dimensions adjacencies (from_index i dimensions) px := by
  simp only [couladj_generic_rayon, List.mem_toFinset, List.mem_flatten, List.mem_map]
  constructor
  · rintro ⟨l, ⟨lp, ⟨ip, hip, rfl⟩, rfl⟩, hp⟩
    exact ⟨ip.1, ip.2, List.mem_enum_iff_getElem?.mp hip, hp⟩
  · rintro ⟨i, px, hget, hp⟩
    exact ⟨_, ⟨(from_index i dimensions, px), ⟨(i, px),
      List.mem_enum_iff_getElem?.mpr hget, rfl⟩, rfl⟩, hp⟩

theorem mem_couladj_loc {buffer : List Rgba} {dimensions : Vector}
    {adjacencies : List Vector} {p : PixelPair}
    (hc : 0 ≤ dimensions.columns)
    (hlen : (buffer.length : Int) = dimensions.rows * dimensions.columns) :
    p ∈ couladj_generic_rayon buffer dimensions adjacencies ↔
      ∃ L, location_in_bounds dimensions L = true ∧ ∃ delta ∈ adjacencies,
        location_in_bounds dimensions (locAdd L delta) = true ∧
        color_at buffer dimensions (locAdd L delta) ≠ color_at buffer dimensions L ∧
        p = ⟨color_at buffer dimensions L, color_at buffer dimensions (locAdd L delta)⟩ := by
  rw [mem_couladj]
  constructor
  · rintro ⟨i, px, hget, hp⟩
    have hilen : i < buffer.length := (List.getElem?_eq_some_iff.mp hget).1
    have hiInt : (i : Int) < dimensions.rows * dimensions.columns := by
      rw [← hlen]
      exact_mod_cast hilen
    have hL : location_in_bounds dimensions (from_index i dimensions) = true :=
      from_index_in_bounds hc hiInt
    have hcolor : color_at buffer dimensions (from_index i dimensions) = px := by
      unfold color_at
      rw [to_index_from_index hc hiInt, List.getD_eq_getElem?_getD, hget]
      rfl
    obtain ⟨delta, hmem, hb, hne, rfl⟩ := mem_pixel_pairs.mp hp
    exact ⟨from_index i dimensions, hL, delta, hmem, hb, by rw [hcolor]; exact hne,
      by rw [hcolor]; rfl⟩
  · rintro ⟨L, hL, delta, hmem, hb, hne, rfl⟩
    refine ⟨to_index L dimensions, color_at buffer dimensions L, ?_, ?_⟩
    · rw [List.getElem?_eq_getElem (to_index_lt_length hlen hL)]
      unfold color_at
      rw [List.getD_eq_getElem?_getD, List.getElem?_eq_getElem (to_index_lt_length hlen hL)]
      rfl
    · rw [from_index_to_index hL]
      exact mem_pixel_pairs.mpr ⟨delta, hmem, hb, hne, rfl⟩

/-! Section: The symmetry closure -/

theorem swap_swap (p : PixelPair) : p.swap.swap = p := rfl

theorem mem_close {set : Finset PixelPair} {p : PixelPair} :
    p ∈ close set ↔ p ∈ set ∨ p.swap ∈ set := by
  unfold close
  rw [Finset.mem_union, Finset.mem_image]
  constructor
  · rintro (h | ⟨q, hq, rfl⟩)
    · exact Or.inl h
    · exact Or.inr (by rw [swap_swap]; exact hq)
  · rintro (h | h)
    · exact Or.inl h
    · exact Or.inr ⟨p.swap, h, swap_swap p⟩

theorem close_close (set : Finset PixelPair) : close (close set) = close set := by
  ext p
  simp only [mem_close, swap_swap]
  tauto

/-! Section: The worker fold and the merge reduction -/

theorem toFinset_congr {l1 l2 : List PixelPair} (h : l1.Perm l2) :
    l1.toFinset = l2.toFinset := by
  ext p
  simp only [List.mem_toFinset]
  exact h.mem_iff

theorem hash_fold_eq (pairs : List PixelPair) : hash_fold pairs = pairs.toFinset := by
  have key : ∀ (l : List PixelPair) (s : Finset PixelPair),
      l.foldl (fun set pair => insert pair set) s = s ∪ l.toFinset := by
    intro l
    induction l with
    | nil => intro s; simp
    | cons p l ih =>
      intro s
      rw [List.foldl_cons, ih, List.toFinset_cons, Finset.insert_union,
        Finset.union_insert]
  rw [hash_fold, key, Finset.empty_union]

theorem merge_sets_eq (set1 set2 : Finset PixelPair) :
    merge_sets set1 set2 = set1 ∪ set2 := by
  unfold merge_sets
  split
  · rfl
  · exact Finset.union_comm set2 set1

theorem foldl_merge_eq (sets : List (List PixelPair)) (acc : Finset PixelPair) :
    (sets.map List.toFinset).foldl merge_sets acc = acc ∪ sets.flatten.toFinset := by
  induction sets generalizing acc with
  | nil => simp
  | cons l sets ih =>
    rw [List.map_cons, List.foldl_cons, merge_sets_eq, ih, List.flatten_cons,
      List.toFinset_append, Finset.union_assoc]

theorem couladj_partitioned_eq (buffer : List Rgba) (dimensions : Vector)
    (adjacencies : List Vector) {partition : List (List (Nat × Rgba))}
    (hpart : partition.flatten.Perm buffer.enum) :
    couladj_partitioned buffer dimensions adjacencies partition =
      couladj_generic_rayon buffer dimensions adjacencies := by
  classical
  set g : Nat × Rgba → List PixelPair := fun ip =>
    pixel_pairs buffer dimensions adjacencies (from_index ip.1 dimensions) ip.2 with hg
  have hchunk : ∀ chunk : List (Nat × Rgba),
      ((chunk.map (fun ip => (from_index ip.1 dimensions, ip.2))).map
        (fun lp => pixel_pairs buffer dimensions adjacencies lp.1 lp.2)) = chunk.map g := by
    intro chunk
    rw [List.map_map]
    rfl
  unfold couladj_partitioned
  have hmapped : (partition.map (fun chunk =>
      hash_fold (((chunk.map (fun ip => (from_index ip.1 dimensions, ip.2))).map
        (fun lp => pixel_pairs buffer dimensions adjacencies lp.1 lp.2)).flatten))) =
      (partition.map (fun chunk => ((chunk.map g).flatten))).map List.toFinset := by
    rw [List.map_map]
    refine List.map_congr_left ?_
    intro chunk _
    rw [hchunk, Function.comp_apply, hash_fold_eq]
  rw [hmapped, foldl_merge_eq, Finset.empty_union]
  have hstream : (partition.map (fun chunk => ((chunk.map g).flatten))).flatten.Perm
      ((buffer.enum.map g).flatten) := by
    have h1 : (partition.map (fun chunk => ((chunk.map g).flatten))) =
        ((partition.map (List.map g)).map List.flatten) := by
      rw [List.map_map]
      rfl
    rw [h1, ← List.flatten_flatten, ← List.map_flatten]
    exact (hpart.map g).flatten
  have hright : couladj_generic_rayon buffer dimensions adjacencies =
      ((buffer.enum.map g).flatten).toFinset := by
    unfold couladj_generic_rayon
    rw [hchunk buffer.enum]
  rw [hright]
  exact toFinset_congr hstream

/-! Section: Forward offsets plus closure versus the full undirected relation -/

theorem locAdd_neg_cancel (L : Location) (delta : Vector) :
    locAdd (locAdd L delta) (negVec delta) = L := by
  ext <;> simp [locAdd, negVec]

theorem locAdd_cancel_neg (L : Location) (delta : Vector) :
    locAdd (locAdd L (negVec delta)) delta = L := by
  ext <;> simp [locAdd, negVec]

theorem close_couladj_neg {buffer : List Rgba} {dimensions : Vector}
    (offs : List Vector) (hc : 0 ≤ dimensions.columns)
    (hlen : (buffer.length : Int) = dimensions.rows * dimensions.columns) :
    close (couladj_generic_rayon buffer dimensions offs) =
      couladj_generic_rayon buffer dimensions (offs ++ offs.map negVec) := by
  ext p
  rw [mem_close, mem_couladj_loc hc hlen, mem_couladj_loc hc hlen,
    mem_couladj_loc hc hlen]
  constructor
  · rintro (⟨L, hL, delta, hmem, hb, hne, rfl⟩ | ⟨L, hL, delta, hmem, hb, hne, hswap⟩)
    · exact ⟨L, hL, delta, List.mem_append_left _ hmem, hb, hne, rfl⟩
    · have hp : p = ⟨color_at buffer dimensions (locAdd L delta),
          color_at buffer dimensions L⟩ := by
        have h2 := congrArg PixelPair.swap hswap
        rw [swap_swap] at h2
        exact h2
      refine ⟨locAdd L delta, hb, negVec delta,
        List.mem_append_right _ (List.mem_map.mpr ⟨delta, hmem, rfl⟩), ?_, ?_, ?_⟩
      · rw [locAdd_neg_cancel]
        exact hL
      · rw [locAdd_neg_cancel]
        exact Ne.symm hne
      · rw [locAdd_neg_cancel]
        exact hp
  · rintro ⟨L, hL, delta, hmem, hb, hne, rfl⟩
    rcases List.mem_append.mp hmem with h | h
    · exact Or.inl ⟨L, hL, delta, h, hb, hne, rfl⟩
    · obtain ⟨delta0, hmem0, rfl⟩ := List.mem_map.mp h
      refine Or.inr ⟨locAdd L (negVec delta0), hb, delta0, hmem0, ?_, ?_, ?_⟩
      · rw [locAdd_cancel_neg]
        exact hL
      · rw [locAdd_cancel_neg]
        exact Ne.symm hne
      · rw [locAdd_cancel_neg]
        rfl

theorem couladj_origin_ne {buffer : List Rgba} {dimensions : Vector}
    {adjacencies : List Vector} {p : PixelPair}
    (hp : p ∈ couladj_generic_rayon buffer dimensions adjacencies) :
    p.origin ≠ p.neighbor := by
  obtain ⟨i, px, _, hpp⟩ := mem_couladj.mp hp
  obtain ⟨delta, _, _, hne, rfl⟩ := mem_pixel_pairs.mp hpp
  exact Ne.symm hne

/-! Section: The claims -/

/-- C4: for every dimensions with `rows ≥ 0` and `columns ≥ 0`, `from_index`
inverts `to_index` on every in-bounds location, and `to_index` inverts
`from_index` on every index `0 ≤ i < rows * columns`. -/
theorem claim_C4_index_roundtrip (dimensions : Vector)
    (hr : 0 ≤ dimensions.rows) (hc : 0 ≤ dimensions.columns) :
    (∀ L : Location, location_in_bounds dimensions L = true →
      from_index (to_index L dimensions) dimensions = L) ∧
    (∀ i : Nat, (i : Int) < dimensions.rows * dimensions.columns →
      to_index (from_index i dimensions) dimensions = i) :=
  ⟨fun _ hL => from_index_to_index hL, fun _ hi => to_index_from_index hc hi⟩

/-- Witness for C4 at dimensions 2×3, location (1, 2) and index 5. -/
theorem claim_C4_witness :
    location_in_bounds ⟨2, 3⟩ ⟨1, 2⟩ = true ∧
      from_index (to_index ⟨1, 2⟩ ⟨2, 3⟩) ⟨2, 3⟩ = (⟨1, 2⟩ : Location) ∧
      to_index (from_index 5 ⟨2, 3⟩) ⟨2, 3⟩ = 5 :=
  ⟨by decide,
    (claim_C4_index_roundtrip ⟨2, 3⟩ (by decide) (by decide)).1 ⟨1, 2⟩ (by decide),
    (claim_C4_index_roundtrip ⟨2, 3⟩ (by decide) (by decide)).2 5 (by decide)⟩

/-- C10: under the invariant `buffer.len() == rows * columns` (with both
non-negative), whenever any pixel index is processed the column count is
positive (so `from_index` never divides by zero), and every neighbor index
that passes the bounds check is below the buffer length (so the
`buffer[neighbor_index]` lookup cannot panic). -/
theorem claim_C10_memory_safety (buffer : List Rgba) (dimensions : Vector)
    (adjacencies : List Vector)
    (hr : 0 ≤ dimensions.rows) (hc : 0 ≤ dimensions.columns)
    (hlen : (buffer.length : Int) = dimensions.rows * dimensions.columns) :
    (∀ i : Nat, i < buffer.length → 0 < dimensions.columns) ∧
    (∀ i : Nat, i < buffer.length → ∀ delta ∈ adjacencies,
      location_in_bounds dimensions (locAdd (from_index i dimensions) delta) = true →
      to_index (locAdd (from_index i dimensions) delta) dimensions < buffer.length) := by
  constructor
  · intro i hi
    have hiInt : (i : Int) < dimensions.rows * dimensions.columns := by
      rw [← hlen]
      exact_mod_cast hi
    exact columns_pos_of_index hc hiInt
  · intro i hi delta _ hb
    exact to_index_lt_length hlen hb

/-- Witness for C10 on the 1×2 scenario image, pixel index 0, offset Right. -/
theorem claim_C10_witness :
    0 < scenarioA_dims.columns ∧
      to_index (locAdd (from_index 0 scenarioA_dims) right) scenarioA_dims <
        scenarioA_buffer.length :=
  ⟨(claim_C10_memory_safety scenarioA_buffer scenarioA_dims forward_4
      (by decide) (by decide) (by decide)).1 0 (by decide),
    (claim_C10_memory_safety scenarioA_buffer scenarioA_dims forward_4
      (by decide) (by decide) (by decide)).2 0 (by decide) right (by decide) (by decide)⟩

/-- C9: the symmetry closure is idempotent: closing a closed set changes
nothing. -/
theorem claim_C9_close_idempotent (set : Finset PixelPair) :
    close (close set) = close set :=
  close_close set

/-- C3: the symmetry-closing step produces exactly the union of the set with
the swapped image of a frozen snapshot of it (membership in the closure is
membership of the pair or of its swap in the input), and consequently the
final result is symmetric: it contains the swap of each of its members. -/
theorem claim_C3_symmetry (set : Finset PixelPair) (q : PixelPair)
    (buffer : List Rgba) (dimensions : Vector) (full_adjacencies : Bool)
    (p : PixelPair) :
    close set = set ∪ set.image PixelPair.swap ∧
    (q ∈ close set ↔ q ∈ set ∨ q.swap ∈ set) ∧
    (p ∈ main_result buffer dimensions full_adjacencies →
      p.swap ∈ main_result buffer dimensions full_adjacencies) := by
  refine ⟨rfl, mem_close, fun hp => ?_⟩
  unfold main_result at hp ⊢
  rw [mem_close] at hp ⊢
  rw [swap_swap]
  tauto

/-- Witness for C3 on the 1×2 scenario image with 4-connected offsets. -/
theorem claim_C3_witness :
    (⟨red, blue⟩ : PixelPair) ∈ main_result scenarioA_buffer scenarioA_dims false ∧
      (⟨red, blue⟩ : PixelPair).swap ∈ main_result scenarioA_buffer scenarioA_dims false :=
  ⟨by decide,
    (claim_C3_symmetry {⟨red, blue⟩} ⟨blue, red⟩ scenarioA_buffer scenarioA_dims false
      ⟨red, blue⟩).2.2 (by decide)⟩

/-- C7: no pair of the aggregation result, before or after symmetry closure,
has equal origin and neighbor colors. -/
theorem claim_C7_no_self_pairs (buffer : List Rgba) (dimensions : Vector)
    (adjacencies : List Vector) (p : PixelPair) :
    (p ∈ couladj_generic_rayon buffer dimensions adjacencies →
      p.origin ≠ p.neighbor) ∧
    (p ∈ close (couladj_generic_rayon buffer dimensions adjacencies) →
      p.origin ≠ p.neighbor) := by
  refine ⟨fun hp => couladj_origin_ne hp, fun hp => ?_⟩
  rcases mem_close.mp hp with h | h
  · exact couladj_origin_ne h
  · exact Ne.symm (couladj_origin_ne h)

/-- Witness for C7 on the 1×2 scenario image. -/
theorem claim_C7_witness :
    (⟨red, blue⟩ : PixelPair) ∈
        close (couladj_generic_rayon scenarioA_buffer scenarioA_dims forward_4) ∧
      (⟨red, blue⟩ : PixelPair).origin ≠ (⟨red, blue⟩ : PixelPair).neighbor :=
  ⟨by decide,
    (claim_C7_no_self_pairs scenarioA_buffer scenarioA_dims forward_4 ⟨red, blue⟩).2
      (by decide)⟩

/-- C1: for every pixel buffer, non-negative dimensions satisfying
`buffer.len() == rows * columns`, and offset list, the aggregation returns
exactly the deduplicated set of pairs `(origin, neighbor)` with
`origin ≠ neighbor` such that some in-bounds location holds `origin` and,
for some offset of the list, the offset neighbor location is in bounds and
holds `neighbor`. -/
theorem claim_C1_aggregation_exact (buffer : List Rgba) (dimensions : Vector)
    (adjacencies : List Vector)
    (hr : 0 ≤ dimensions.rows) (hc : 0 ≤ dimensions.columns)
    (hlen : (buffer.length : Int) = dimensions.rows * dimensions.columns)
    (p : PixelPair) :
    p ∈ couladj_generic_rayon buffer dimensions adjacencies ↔
      p.origin ≠ p.neighbor ∧
      ∃ L, location_in_bounds dimensions L = true ∧
        color_at buffer dimensions L = p.origin ∧
        ∃ delta ∈ adjacencies,
          location_in_bounds dimensions (locAdd L delta) = true ∧
          color_at buffer dimensions (locAdd L delta) = p.neighbor := by
  rw [mem_couladj_loc hc hlen]
  constructor
  · rintro ⟨L, hL, delta, hmem, hb, hne, rfl⟩
    exact ⟨Ne.symm hne, L, hL, rfl, delta, hmem, hb, rfl⟩
  · rintro ⟨hne, L, hL, ho, delta, hmem, hb, hn⟩
    refine ⟨L, hL, delta, hmem, hb, ?_, ?_⟩
    · rw [ho, hn]
      exact Ne.symm hne
    · rw [ho, hn]

/-- Witness for C1: on the 1×2 scenario image, (Red, Blue) is in the
4-connected aggregation and satisfies the characterization. -/
theorem claim_C1_witness :
    (⟨red, blue⟩ : PixelPair) ∈
        couladj_generic_rayon scenarioA_buffer scenarioA_dims forward_4 ∧
      ((⟨red, blue⟩ : PixelPair).origin ≠ (⟨red, blue⟩ : PixelPair).neighbor ∧
        ∃ L, location_in_bounds scenarioA_dims L = true ∧
          color_at scenarioA_buffer scenarioA_dims L = (⟨red, blue⟩ : PixelPair).origin ∧
          ∃ delta ∈ forward_4,
            location_in_bounds scenarioA_dims (locAdd L delta) = true ∧
            color_at scenarioA_buffer scenarioA_dims (locAdd L delta) =
              (⟨red, blue⟩ : PixelPair).neighbor) :=
  ⟨by decide,
    (claim_C1_aggregation_exact scenarioA_buffer scenarioA_dims forward_4
      (by decide) (by decide) (by decide) ⟨red, blue⟩).mp (by decide)⟩

/-- C2: for every image satisfying the dimension invariant, running the
aggregation with only the forward offsets and then closing under swap yields
the same set as running it with the full undirected offset list: the
closure restores completeness after checking only half the neighbor
directions. -/
theorem claim_C2_forward_closure_eq_full (buffer : List Rgba) (dimensions : Vector)
    (hr : 0 ≤ dimensions.rows) (hc : 0 ≤ dimensions.columns)
    (hlen : (buffer.length : Int) = dimensions.rows * dimensions.columns) :
    close (couladj_generic_rayon buffer dimensions forward_4) =
      couladj_generic_rayon buffer dimensions full_4 ∧
    close (couladj_generic_rayon buffer dimensions forward_8) =
      couladj_generic_rayon buffer dimensions full_8 := by
  constructor
  · have h4 : forward_4 ++ forward_4.map negVec = full_4 := by decide
    rw [close_couladj_neg forward_4 hc hlen, h4]
  · have h8 : forward_8 ++ forward_8.map negVec = full_8 := by decide
    rw [close_couladj_neg forward_8 hc hlen, h8]

/-- Witness for C2 on the 1×2 scenario image. -/
theorem claim_C2_witness :
    close (couladj_generic_rayon scenarioA_buffer scenarioA_dims forward_4) =
        couladj_generic_rayon scenarioA_buffer scenarioA_dims full_4 ∧
      close (couladj_generic_rayon scenarioA_buffer scenarioA_dims forward_8) =
        couladj_generic_rayon scenarioA_buffer scenarioA_dims full_8 :=
  claim_C2_forward_closure_eq_full scenarioA_buffer scenarioA_dims
    (by decide) (by decide) (by decide)

/-- C6: the aggregation is deterministic: any two runs over the same buffer,
dimensions and offsets — with arbitrary worker partitions of the enumerated
buffer and arbitrary merge order — produce the same set, and the Table-mode
output rendered from any iteration orders of the two (closed) result sets is
identical. -/
theorem claim_C6_determinism (buffer : List Rgba) (dimensions : Vector)
    (adjacencies : List Vector) (part1 part2 : List (List (Nat × Rgba)))
    (l1 l2 : List PixelPair)
    (h1 : part1.flatten.Perm buffer.enum) (h2 : part2.flatten.Perm buffer.enum)
    (hl1 : (l1 : Multiset PixelPair) =
      (close (couladj_partitioned buffer dimensions adjacencies part1)).val)
    (hl2 : (l2 : Multiset PixelPair) =
      (close (couladj_partitioned buffer dimensions adjacencies part2)).val) :
    couladj_partitioned buffer dimensions adjacencies part1 =
      couladj_partitioned buffer dimensions adjacencies part2 ∧
    table_output l1 = table_output l2 := by
  have e1 := couladj_partitioned_eq buffer dimensions adjacencies h1
  have e2 := couladj_partitioned_eq buffer dimensions adjacencies h2
  have hsets := e1.trans e2.symm
  refine ⟨hsets, ?_⟩
  have hcoe : (l1 : Multiset PixelPair) = (l2 : Multiset PixelPair) := by
    rw [hl1, hl2, hsets]
  unfold table_output
  rw [sortPairs_congr (Multiset.coe_eq_coe.mp hcoe)]

/-- Witness for C6: two different partitions and iteration orders of the
1×2 scenario run yield the same set and the same rendered table. -/
theorem claim_C6_witness :
    couladj_partitioned scenarioA_buffer scenarioA_dims forward_4
        [[(0, red), (1, blue)]] =
      couladj_partitioned scenarioA_buffer scenarioA_dims forward_4
        [[(1, blue)], [(0, red)]] ∧
    table_output [⟨red, blue⟩, ⟨blue, red⟩] = table_output [⟨blue, red⟩, ⟨red, blue⟩] :=
  claim_C6_determinism scenarioA_buffer scenarioA_dims forward_4
    [[(0, red), (1, blue)]] [[(1, blue)], [(0, red)]]
    [⟨red, blue⟩, ⟨blue, red⟩] [⟨blue, red⟩, ⟨red, blue⟩]
    (by decide) (by decide) (by decide) (by decide)

/-- C8: the number reported in Count mode is the cardinality of the final
symmetry-closed set, and the number of Table-mode data rows (the output
minus its header line) equals that same count. -/
theorem claim_C8_count_table_consistent (buffer : List Rgba) (dimensions : Vector)
    (full_adjacencies : Bool) (l : List PixelPair)
    (hl : (l : Multiset PixelPair) =
      (main_result buffer dimensions full_adjacencies).val) :
    count_reported (main_result buffer dimensions full_adjacencies) =
      (main_result buffer dimensions full_adjacencies).card ∧
    (table_output l).length =
      count_reported (main_result buffer dimensions full_adjacencies) + 1 := by
  refine ⟨rfl, ?_⟩
  have hlen : l.length = (main_result buffer dimensions full_adjacencies).card := by
    have hcard := congrArg Multiset.card hl
    simpa using hcard
  unfold table_output
  rw [List.length_cons, List.length_map, (sortPairs_perm l).length_eq, hlen]
  rfl

/-- Witness for C8 on the 1×2 scenario image: two data rows, count 2. -/
theorem claim_C8_witness :
    count_reported (main_result scenarioA_buffer scenarioA_dims false) =
        (main_result scenarioA_buffer scenarioA_dims false).card ∧
      (table_output [⟨red, blue⟩, ⟨blue, red⟩]).length =
        count_reported (main_result scenarioA_buffer scenarioA_dims false) + 1 :=
  claim_C8_count_table_consistent scenarioA_buffer scenarioA_dims false
    [⟨red, blue⟩, ⟨blue, red⟩] (by decide)

/-- C5 as stated is false: the sort rule (lexicographic by origin color
bytes, then neighbor color bytes) places the Blue-origin row before the
Red-origin row, so the Table-mode output of the 1×2 scenario is not the
header followed by the Red row and then the Blue row. -/
theorem claim_C5_counterexample :
    ((([⟨red, blue⟩, ⟨blue, red⟩] : List PixelPair) : Multiset PixelPair) =
      (close (couladj_generic_rayon scenarioA_buffer scenarioA_dims forward_4)).val) ∧
    table_output [⟨red, blue⟩, ⟨blue, red⟩] ≠
      [header, "255\t0\t0\t255\t0\t0\t255\t255", "0\t0\t255\t255\t255\t0\t0\t255"] := by
  constructor
  · decide
  · decide

/-- C5 (amended): for the 1×2 scenario image with pixels [Red, Blue] and
4-connected offsets, the Table-mode output is exactly the header line, then
the row `0\t0\t255\t255\t255\t0\t0\t255`, then the row
`255\t0\t0\t255\t0\t0\t255\t255`, in that order as dictated by the sort rule. -/
theorem claim_C5_table_scenario (l : List PixelPair)
    (hl : (l : Multiset PixelPair) =
      (close (couladj_generic_rayon scenarioA_buffer scenarioA_dims forward_4)).val) :
    table_output l =
      [header, "0\t0\t255\t255\t255\t0\t0\t255", "255\t0\t0\t255\t0\t0\t255\t255"] := by
  have hcoe : ((([⟨red, blue⟩, ⟨blue, red⟩] : List PixelPair) : Multiset PixelPair) =
      (close (couladj_generic_rayon scenarioA_buffer scenarioA_dims forward_4)).val) := by
    decide
  have hperm : l.Perm [⟨red, blue⟩, ⟨blue, red⟩] :=
    Multiset.coe_eq_coe.mp (hl.trans hcoe.symm)
  unfold table_output
  rw [sortPairs_congr hperm]
  decide

/-- Witness for the amended C5, iterating the result set as
[(Blue, Red), (Red, Blue)]. -/
theorem claim_C5_witness :
    table_output [⟨blue, red⟩, ⟨red, blue⟩] =
      [header, "0\t0\t255\t255\t255\t0\t0\t255", "255\t0\t0\t255\t0\t0\t255\t255"] :=
  claim_C5_table_scenario [⟨blue, red⟩, ⟨red, blue⟩] (by decide)

end Couladj
